import Mathlib

/-!
Verification of the core mathematics of the STP (semi-tensor product) demo.

The program under study exposes four computational pieces:
  * `get_lcm a b` — the least-common-multiple routine
    (returns 0 when either argument is 0, otherwise abs(a*b) // gcd(a, b));
  * `stp_product_stepwise A B` — the generalized (semi-tensor) matrix product,
    expanding both operands by identity matrices via Kronecker products;
  * `stp_addition_stepwise V1 V2` — the generalized vector addition, expanding
    both operands by all-ones column vectors via Kronecker products;
  * the inline generalized matrix addition (all-ones block expansion of both
    operands, followed by elementwise addition).

Matrices are modelled after numpy integer arrays: a shape (row and column
counts) together with a total entry function; entries outside the shape are
irrelevant to every statement below.  The numpy Kronecker product of an
m x n matrix A and a p x q matrix B is the (m*p) x (n*q) matrix whose entry at
(p*i + r, q*j + s) is A[i,j] * B[r,s]; equivalently, entry (x, y) is
A[x / p, y / q] * B[x % p, y % q], which is the form used here.
-/

/-- A numpy-style integer matrix: a shape together with a total entry
function.  Entries at indices outside the shape carry no meaning. -/
@[ext]
structure NPMat where
  rows : ℕ
  cols : ℕ
  entry : ℕ → ℕ → ℤ

/-- The LCM routine of the program: 0 when either argument is 0, otherwise
abs(a*b) // gcd(a, b).  The gcd of the host language is the gcd of the
absolute values, a nonnegative integer, and the floor division of the
nonnegative abs(a*b) by it is exact natural division. -/
def get_lcm (a b : ℤ) : ℤ :=
  if a = 0 ∨ b = 0 then 0
  else (((a * b).natAbs / Int.gcd a b : ℕ) : ℤ)

/-- The identity matrix of order k (np.eye). -/
def np_eye (k : ℕ) : NPMat :=
  ⟨k, k, fun i j => if i = j then 1 else 0⟩

/-- The all-ones matrix of the given shape (np.ones). -/
def np_ones (r c : ℕ) : NPMat :=
  ⟨r, c, fun _ _ => 1⟩

/-- The Kronecker product (np.kron): entry (x, y) of the (m*p) x (n*q)
result is A[x / p, y / q] * B[x % p, y % q]. -/
def np_kron (A B : NPMat) : NPMat :=
  ⟨A.rows * B.rows, A.cols * B.cols,
   fun i j => A.entry (i / B.rows) (j / B.cols) * B.entry (i % B.rows) (j % B.cols)⟩

/-- Standard matrix multiplication (np.dot), summing over the column count
of the left operand; the caller guarantees it equals the row count of the
right operand. -/
def np_dot (A B : NPMat) : NPMat :=
  ⟨A.rows, B.cols, fun i j => ∑ k ∈ Finset.range A.cols, A.entry i k * B.entry k j⟩

/-- Elementwise matrix addition (numpy +); the caller guarantees equal
shapes. -/
def np_add (A B : NPMat) : NPMat :=
  ⟨A.rows, A.cols, fun i j => A.entry i j + B.entry i j⟩

/-- The result bundle of the generalized product. -/
structure ProductSteps where
  LCM : ℕ
  alpha : ℕ
  beta : ℕ
  A_kron : NPMat
  B_kron : NPMat
  Result : NPMat

/-- The generalized (semi-tensor) product: reconcile the column count of A
with the row count of B through `get_lcm`, expand each operand by the
Kronecker product with an identity matrix of the corresponding factor, and
multiply the expansions.  Shape dimensions are naturals and the floor
division of the host language on nonnegative integers is natural
division. -/
def stp_product_stepwise (A B : NPMat) : ProductSteps :=
  let L : ℕ := (get_lcm (A.cols : ℤ) (B.rows : ℤ)).toNat
  let alpha : ℕ := L / A.cols
  let beta : ℕ := L / B.rows
  let A_kron := np_kron A (np_eye alpha)
  let B_kron := np_kron B (np_eye beta)
  ⟨L, alpha, beta, A_kron, B_kron, np_dot A_kron B_kron⟩

/-- The result bundle of the generalized vector addition. -/
structure AdditionSteps where
  LCM : ℕ
  alpha : ℕ
  beta : ℕ
  V1_kron : NPMat
  V2_kron : NPMat
  Result : NPMat

/-- The generalized vector addition: reconcile the two row counts through
`get_lcm`, expand each operand by the Kronecker product with an all-ones
column vector of the corresponding factor, and add the expansions
elementwise. -/
def stp_addition_stepwise (V1 V2 : NPMat) : AdditionSteps :=
  let L : ℕ := (get_lcm (V1.rows : ℤ) (V2.rows : ℤ)).toNat
  let alpha : ℕ := L / V1.rows
  let beta : ℕ := L / V2.rows
  let V1_kron := np_kron V1 (np_ones alpha 1)
  let V2_kron := np_kron V2 (np_ones beta 1)
  ⟨L, alpha, beta, V1_kron, V2_kron, np_add V1_kron V2_kron⟩

/-- The result bundle of the generalized matrix addition. -/
structure MatrixAddSteps where
  lcm_row : ℕ
  lcm_col : ℕ
  alpha_r : ℕ
  alpha_c : ℕ
  beta_r : ℕ
  beta_c : ℕ
  A_exp : NPMat
  B_exp : NPMat
  Res_add : NPMat

/-- The generalized matrix addition of the interactive page: reconcile row
counts and column counts independently through `get_lcm`, expand each
operand by the Kronecker product with an all-ones block of its factor
shape, and add the expansions elementwise. -/
def stp_matrix_addition (A B : NPMat) : MatrixAddSteps :=
  let lcm_row : ℕ := (get_lcm (A.rows : ℤ) (B.rows : ℤ)).toNat
  let lcm_col : ℕ := (get_lcm (A.cols : ℤ) (B.cols : ℤ)).toNat
  let alpha_r : ℕ := lcm_row / A.rows
  let alpha_c : ℕ := lcm_col / A.cols
  let beta_r : ℕ := lcm_row / B.rows
  let beta_c : ℕ := lcm_col / B.cols
  let A_exp := np_kron A (np_ones alpha_r alpha_c)
  let B_exp := np_kron B (np_ones beta_r beta_c)
  ⟨lcm_row, lcm_col, alpha_r, alpha_c, beta_r, beta_c, A_exp, B_exp, np_add A_exp B_exp⟩

/-! ### Basic facts about `get_lcm` -/

/-- On natural-number inputs, `get_lcm` computes the natural lcm. -/
theorem get_lcm_coe (m n : ℕ) : get_lcm (m : ℤ) (n : ℤ) = (Nat.lcm m n : ℤ) := by
  unfold get_lcm
  rcases Nat.eq_zero_or_pos m with hm | hm
  · subst hm; simp
  rcases Nat.eq_zero_or_pos n with hn | hn
  · subst hn; simp
  have hm0 : (m : ℤ) ≠ 0 := Int.natCast_ne_zero.mpr hm.ne'
  have hn0 : (n : ℤ) ≠ 0 := Int.natCast_ne_zero.mpr hn.ne'
  rw [if_neg (not_or.mpr ⟨hm0, hn0⟩)]
  have habs : ((m : ℤ) * (n : ℤ)).natAbs = m * n := by
    simp [Int.natAbs_mul]
  have hg : Int.gcd (m : ℤ) (n : ℤ) = Nat.gcd m n := by
    simp [Int.gcd]
  rw [habs, hg]
  rfl

/-- The natural-number value of `get_lcm` on natural-number inputs. -/
theorem get_lcm_toNat (m n : ℕ) : (get_lcm (m : ℤ) (n : ℤ)).toNat = Nat.lcm m n := by
  rw [get_lcm_coe]; exact Int.toNat_natCast _

/-! ### Block structure of the Kronecker product -/

/-- Inside the block at (i, j), the Kronecker product places
A[i,j] * B[r,s] at offset (r, s). -/
theorem np_kron_entry_block (A B : NPMat) (i j r s : ℕ)
    (hr : r < B.rows) (hs : s < B.cols) :
    (np_kron A B).entry (B.rows * i + r) (B.cols * j + s) = A.entry i j * B.entry r s := by
  have hbr : 0 < B.rows := Nat.lt_of_le_of_lt (Nat.zero_le r) hr
  have hbc : 0 < B.cols := Nat.lt_of_le_of_lt (Nat.zero_le s) hs
  simp only [np_kron]
  rw [Nat.mul_add_div hbr, Nat.mul_add_div hbc,
    Nat.div_eq_of_lt hr, Nat.div_eq_of_lt hs,
    Nat.mul_add_mod, Nat.mul_add_mod,
    Nat.mod_eq_of_lt hr, Nat.mod_eq_of_lt hs,
    Nat.add_zero, Nat.add_zero]

/-- Kronecker expansion by the identity of order 1 is the identity map on
matrices. -/
theorem np_kron_eye_one (A : NPMat) : np_kron A (np_eye 1) = A := by
  refine NPMat.ext (Nat.mul_one _) (Nat.mul_one _) ?_
  funext i j
  simp [np_kron, np_eye, Nat.mod_one]

/-- Kronecker expansion by the all-ones 1 x 1 block is the identity map on
matrices. -/
theorem np_kron_ones_one (A : NPMat) : np_kron A (np_ones 1 1) = A := by
  refine NPMat.ext (Nat.mul_one _) (Nat.mul_one _) ?_
  funext i j
  simp [np_kron, np_ones]

/-! ### Claim theorems -/

/-- Claim C1: for positive d1, d2 the reconciliation computes L as the
least common multiple, with both factors positive and exact: alpha * d1 = L
and beta * d2 = L, L divisible by both inputs, and L minimal among positive
common multiples. -/
theorem reconcile_lcm_correct (d1 d2 : ℕ) (h1 : 0 < d1) (h2 : 0 < d2) :
    (get_lcm (d1 : ℤ) (d2 : ℤ)).toNat = Nat.lcm d1 d2 ∧
    0 < (get_lcm (d1 : ℤ) (d2 : ℤ)).toNat ∧
    (get_lcm (d1 : ℤ) (d2 : ℤ)).toNat % d1 = 0 ∧
    (get_lcm (d1 : ℤ) (d2 : ℤ)).toNat % d2 = 0 ∧
    ((get_lcm (d1 : ℤ) (d2 : ℤ)).toNat / d1) * d1 = (get_lcm (d1 : ℤ) (d2 : ℤ)).toNat ∧
    ((get_lcm (d1 : ℤ) (d2 : ℤ)).toNat / d2) * d2 = (get_lcm (d1 : ℤ) (d2 : ℤ)).toNat ∧
    0 < (get_lcm (d1 : ℤ) (d2 : ℤ)).toNat / d1 ∧
    0 < (get_lcm (d1 : ℤ) (d2 : ℤ)).toNat / d2 ∧
    ∀ M : ℕ, 0 < M → M % d1 = 0 → M % d2 = 0 →
      (get_lcm (d1 : ℤ) (d2 : ℤ)).toNat ≤ M := by
  rw [get_lcm_toNat]
  have hL : 0 < Nat.lcm d1 d2 := Nat.lcm_pos h1 h2
  have hd1 : d1 ∣ Nat.lcm d1 d2 := Nat.dvd_lcm_left d1 d2
  have hd2 : d2 ∣ Nat.lcm d1 d2 := Nat.dvd_lcm_right d1 d2
  refine ⟨rfl, hL, Nat.mod_eq_zero_of_dvd hd1,
    Nat.mod_eq_zero_of_dvd hd2,
    Nat.div_mul_cancel hd1, Nat.div_mul_cancel hd2,
    Nat.div_pos (Nat.le_of_dvd hL hd1) h1,
    Nat.div_pos (Nat.le_of_dvd hL hd2) h2, ?_⟩
  intro M hM hM1 hM2
  exact Nat.le_of_dvd hM
    (Nat.lcm_dvd (Nat.dvd_of_mod_eq_zero hM1) (Nat.dvd_of_mod_eq_zero hM2))

/-- Claim C1 witness at d1 = 4, d2 = 6. -/
theorem reconcile_lcm_correct_witness :
    0 < 4 ∧ 0 < 6 ∧ (get_lcm ((4 : ℕ) : ℤ) ((6 : ℕ) : ℤ)).toNat = Nat.lcm 4 6 :=
  ⟨by decide, by decide, (reconcile_lcm_correct 4 6 (by decide) (by decide)).1⟩

/-! ### Unfolding the stepwise operations -/

/-- The generalized product, with the reconciliation spelled out as the
natural lcm. -/
theorem stp_product_eq (A B : NPMat) :
    stp_product_stepwise A B =
      ⟨Nat.lcm A.cols B.rows,
       Nat.lcm A.cols B.rows / A.cols,
       Nat.lcm A.cols B.rows / B.rows,
       np_kron A (np_eye (Nat.lcm A.cols B.rows / A.cols)),
       np_kron B (np_eye (Nat.lcm A.cols B.rows / B.rows)),
       np_dot (np_kron A (np_eye (Nat.lcm A.cols B.rows / A.cols)))
         (np_kron B (np_eye (Nat.lcm A.cols B.rows / B.rows)))⟩ := by
  simp [stp_product_stepwise, get_lcm_toNat]

/-- The generalized vector addition, with the reconciliation spelled out as
the natural lcm. -/
theorem stp_addition_eq (V1 V2 : NPMat) :
    stp_addition_stepwise V1 V2 =
      ⟨Nat.lcm V1.rows V2.rows,
       Nat.lcm V1.rows V2.rows / V1.rows,
       Nat.lcm V1.rows V2.rows / V2.rows,
       np_kron V1 (np_ones (Nat.lcm V1.rows V2.rows / V1.rows) 1),
       np_kron V2 (np_ones (Nat.lcm V1.rows V2.rows / V2.rows) 1),
       np_add (np_kron V1 (np_ones (Nat.lcm V1.rows V2.rows / V1.rows) 1))
         (np_kron V2 (np_ones (Nat.lcm V1.rows V2.rows / V2.rows) 1))⟩ := by
  simp [stp_addition_stepwise, get_lcm_toNat]

/-- The generalized matrix addition, with both reconciliations spelled out
as natural lcms. -/
theorem stp_matrix_addition_eq (A B : NPMat) :
    stp_matrix_addition A B =
      ⟨Nat.lcm A.rows B.rows, Nat.lcm A.cols B.cols,
       Nat.lcm A.rows B.rows / A.rows, Nat.lcm A.cols B.cols / A.cols,
       Nat.lcm A.rows B.rows / B.rows, Nat.lcm A.cols B.cols / B.cols,
       np_kron A (np_ones (Nat.lcm A.rows B.rows / A.rows) (Nat.lcm A.cols B.cols / A.cols)),
       np_kron B (np_ones (Nat.lcm A.rows B.rows / B.rows) (Nat.lcm A.cols B.cols / B.cols)),
       np_add
         (np_kron A (np_ones (Nat.lcm A.rows B.rows / A.rows) (Nat.lcm A.cols B.cols / A.cols)))
         (np_kron B
           (np_ones (Nat.lcm A.rows B.rows / B.rows) (Nat.lcm A.cols B.cols / B.cols)))⟩ := by
  simp [stp_matrix_addition, get_lcm_toNat]

/-- Entry form of the identity-expanded Kronecker block: the scalar on the
block diagonal, 0 off it. -/
theorem np_kron_eye_entry (A : NPMat) (k i j r s : ℕ) (hr : r < k) (hs : s < k) :
    (np_kron A (np_eye k)).entry (k * i + r) (k * j + s) =
      if r = s then A.entry i j else 0 := by
  have h := np_kron_entry_block A (np_eye k) i j r s hr hs
  simpa [np_eye, mul_ite] using h

/-- Entry form of the all-ones-expanded Kronecker block: a uniform block
holding the source scalar. -/
theorem np_kron_ones_entry (A : NPMat) (a c i j r s : ℕ) (hr : r < a) (hs : s < c) :
    (np_kron A (np_ones a c)).entry (a * i + r) (c * j + s) = A.entry i j := by
  have h := np_kron_entry_block A (np_ones a c) i j r s hr hs
  simpa [np_ones] using h

/-! ### Concrete matrices used by counterexamples and witnesses -/

/-- The concrete scenario matrix A = [[1,2],[3,4]]. -/
def exA : NPMat :=
  ⟨2, 2, fun i j => if i = 0 then (if j = 0 then 1 else 2) else (if j = 0 then 3 else 4)⟩

/-- The concrete scenario matrix B = [[1,0],[0,1],[1,1]]. -/
def exB : NPMat :=
  ⟨3, 2, fun i j =>
    if i = 0 then (if j = 0 then 1 else 0)
    else if i = 1 then (if j = 0 then 0 else 1)
    else 1⟩

/-- The concrete 2 x 2 matrix C = [[5,6],[7,8]], a partner of matching
inner dimension for the standard-multiplication case. -/
def exC : NPMat :=
  ⟨2, 2, fun i j => if i = 0 then (if j = 0 then 5 else 6) else (if j = 0 then 7 else 8)⟩

/-- Claim C2 counterexample: on A = [[1,2],[3,4]] (2 x 2) and
B = [[1,0],[0,1],[1,1]] (3 x 2) the expanded operand A_kron has 6 rows, not
the 2 rows the claimed shape m x L requires; B_kron has 4 columns, not q = 2;
and the result is 6 x 4, not m x q = 2 x 2. -/
theorem stp_product_shape_counterexample :
    (stp_product_stepwise exA exB).A_kron.rows ≠ exA.rows ∧
    (stp_product_stepwise exA exB).B_kron.cols ≠ exB.cols ∧
    (stp_product_stepwise exA exB).Result.rows ≠ exA.rows ∧
    (stp_product_stepwise exA exB).Result.cols ≠ exB.cols := by
  decide

/-- Claim C2 (amended): the generalized product reconciles the column count
of A against the row count of B into L = lcm, expands A to an
(m * alpha) x L matrix and B to an L x (q * beta) matrix in which every
scalar becomes an alpha x alpha (resp. beta x beta) block carrying the
scalar on its diagonal and exactly 0 off it, and multiplies the expansions
by standard matrix multiplication into an (m * alpha) x (q * beta)
result. -/
theorem stp_product_expansion_correct (A B : NPMat) (S : ProductSteps)
    (hm : 0 < A.rows) (hn : 0 < A.cols) (hp : 0 < B.rows) (hq : 0 < B.cols)
    (hS : S = stp_product_stepwise A B) :
    S.LCM = Nat.lcm A.cols B.rows ∧
    S.alpha * A.cols = S.LCM ∧
    S.beta * B.rows = S.LCM ∧
    S.A_kron.rows = A.rows * S.alpha ∧
    S.A_kron.cols = S.LCM ∧
    S.B_kron.rows = S.LCM ∧
    S.B_kron.cols = B.cols * S.beta ∧
    (∀ i j r s : ℕ, r < S.alpha → s < S.alpha →
      S.A_kron.entry (S.alpha * i + r) (S.alpha * j + s) =
        if r = s then A.entry i j else 0) ∧
    (∀ i j r s : ℕ, r < S.beta → s < S.beta →
      S.B_kron.entry (S.beta * i + r) (S.beta * j + s) =
        if r = s then B.entry i j else 0) ∧
    S.Result = np_dot S.A_kron S.B_kron ∧
    S.Result.rows = A.rows * S.alpha ∧
    S.Result.cols = B.cols * S.beta := by
  subst hS
  rw [stp_product_eq]
  exact ⟨rfl, Nat.div_mul_cancel (Nat.dvd_lcm_left _ _),
    Nat.div_mul_cancel (Nat.dvd_lcm_right _ _), rfl,
    Nat.mul_div_cancel' (Nat.dvd_lcm_left _ _),
    Nat.mul_div_cancel' (Nat.dvd_lcm_right _ _), rfl,
    fun i j r s hr hs => np_kron_eye_entry A _ i j r s hr hs,
    fun i j r s hr hs => np_kron_eye_entry B _ i j r s hr hs,
    rfl, rfl, rfl⟩

/-- Claim C2 witness at the concrete scenario matrices. -/
theorem stp_product_expansion_correct_witness :
    0 < exA.rows ∧ 0 < exA.cols ∧ 0 < exB.rows ∧ 0 < exB.cols ∧
    (stp_product_stepwise exA exB).LCM = Nat.lcm exA.cols exB.rows ∧
    (stp_product_stepwise exA exB).alpha * exA.cols = (stp_product_stepwise exA exB).LCM :=
  ⟨by decide, by decide, by decide, by decide,
    (stp_product_expansion_correct exA exB _ (by decide) (by decide) (by decide) (by decide)
      rfl).1,
    (stp_product_expansion_correct exA exB _ (by decide) (by decide) (by decide) (by decide)
      rfl).2.1⟩

/-- Claim C3: when the column count of A equals the row count of B, both
expansion factors are 1, both expansions leave their operand unchanged, and
the generalized product collapses to the standard matrix product. -/
theorem stp_product_standard_case (A B : NPMat)
    (hn : 0 < A.cols) (hnp : A.cols = B.rows) :
    (stp_product_stepwise A B).alpha = 1 ∧
    (stp_product_stepwise A B).beta = 1 ∧
    (stp_product_stepwise A B).A_kron = A ∧
    (stp_product_stepwise A B).B_kron = B ∧
    (stp_product_stepwise A B).Result = np_dot A B := by
  rw [stp_product_eq]
  have hL : Nat.lcm A.cols B.rows = A.cols := by rw [← hnp, Nat.lcm_self]
  have hA : Nat.lcm A.cols B.rows / A.cols = 1 := by rw [hL, Nat.div_self hn]
  have hB : Nat.lcm A.cols B.rows / B.rows = 1 := by
    rw [hL, ← hnp, Nat.div_self hn]
  refine ⟨?_, ?_, ?_, ?_, ?_⟩ <;> simp [hA, hB, np_kron_eye_one]

/-- Claim C3 witness at the concrete matrices A = [[1,2],[3,4]] and
C = [[5,6],[7,8]] of matching inner dimension 2. -/
theorem stp_product_standard_case_witness :
    0 < exA.cols ∧ exA.cols = exC.rows ∧
    (stp_product_stepwise exA exC).alpha = 1 ∧
    (stp_product_stepwise exA exC).Result = np_dot exA exC :=
  ⟨by decide, rfl,
    (stp_product_standard_case exA exC (by decide) rfl).1,
    (stp_product_standard_case exA exC (by decide) rfl).2.2.2.2⟩

/-- The concrete feature vector V1 = [[10],[20]]. -/
def exV1 : NPMat := ⟨2, 1, fun i _ => if i = 0 then 10 else 20⟩

/-- The concrete feature vector V2 = [[1],[2],[3]]. -/
def exV2 : NPMat := ⟨3, 1, fun i _ => if i = 0 then 1 else if i = 1 then 2 else 3⟩

/-- Claim C4: the generalized vector addition reconciles the two lengths
into L = lcm, expands each vector by an all-ones column so every source
scalar is repeated across its whole run of alpha (resp. beta) consecutive
entries, and adds the expansions elementwise into a vector of length L. -/
theorem stp_addition_correct (V1 V2 : NPMat) (S : AdditionSteps)
    (hm : 0 < V1.rows) (hp : 0 < V2.rows) (hc1 : V1.cols = 1) (hc2 : V2.cols = 1)
    (hS : S = stp_addition_stepwise V1 V2) :
    S.LCM = Nat.lcm V1.rows V2.rows ∧
    S.V1_kron.rows = S.LCM ∧ S.V1_kron.cols = 1 ∧
    S.V2_kron.rows = S.LCM ∧ S.V2_kron.cols = 1 ∧
    (∀ i r : ℕ, r < S.alpha → S.V1_kron.entry (S.alpha * i + r) 0 = V1.entry i 0) ∧
    (∀ i r : ℕ, r < S.beta → S.V2_kron.entry (S.beta * i + r) 0 = V2.entry i 0) ∧
    S.Result = np_add S.V1_kron S.V2_kron ∧
    S.Result.rows = S.LCM ∧ S.Result.cols = 1 ∧
    (∀ i j : ℕ, S.Result.entry i j = S.V1_kron.entry i j + S.V2_kron.entry i j) := by
  subst hS
  rw [stp_addition_eq]
  refine ⟨rfl, Nat.mul_div_cancel' (Nat.dvd_lcm_left _ _), by simp [np_kron, np_ones, hc1],
    Nat.mul_div_cancel' (Nat.dvd_lcm_right _ _), by simp [np_kron, np_ones, hc2],
    fun i r hr => np_kron_ones_entry V1 _ 1 i 0 r 0 hr (by decide),
    fun i r hr => np_kron_ones_entry V2 _ 1 i 0 r 0 hr (by decide),
    rfl, Nat.mul_div_cancel' (Nat.dvd_lcm_left _ _), by simp [np_add, np_kron, np_ones, hc1],
    fun i j => rfl⟩

/-- Claim C4 witness at the concrete vectors [[10],[20]] and
[[1],[2],[3]]. -/
theorem stp_addition_correct_witness :
    0 < exV1.rows ∧ 0 < exV2.rows ∧ exV1.cols = 1 ∧ exV2.cols = 1 ∧
    (stp_addition_stepwise exV1 exV2).LCM = Nat.lcm exV1.rows exV2.rows ∧
    (stp_addition_stepwise exV1 exV2).Result.rows = (stp_addition_stepwise exV1 exV2).LCM :=
  ⟨by decide, by decide, rfl, rfl,
    (stp_addition_correct exV1 exV2 _ (by decide) (by decide) rfl rfl rfl).1,
    (stp_addition_correct exV1 exV2 _ (by decide) (by decide) rfl rfl rfl).2.2.2.2.2.2.2.2.1⟩

/-- Claim C5: the generalized matrix addition reconciles rows and columns
independently, expands each operand by an all-ones block of its factor
shape so every source scalar becomes a uniform constant block, adds the
expansions elementwise into a lcm-row x lcm-col result, and collapses to
ordinary elementwise addition when the shapes already match. -/
theorem stp_matrix_addition_correct (A B : NPMat) (T : MatrixAddSteps)
    (h1 : 0 < A.rows) (h2 : 0 < A.cols) (h3 : 0 < B.rows) (h4 : 0 < B.cols)
    (hT : T = stp_matrix_addition A B) :
    T.lcm_row = Nat.lcm A.rows B.rows ∧
    T.lcm_col = Nat.lcm A.cols B.cols ∧
    T.A_exp.rows = T.lcm_row ∧ T.A_exp.cols = T.lcm_col ∧
    T.B_exp.rows = T.lcm_row ∧ T.B_exp.cols = T.lcm_col ∧
    (∀ i j r s : ℕ, r < T.alpha_r → s < T.alpha_c →
      T.A_exp.entry (T.alpha_r * i + r) (T.alpha_c * j + s) = A.entry i j) ∧
    (∀ i j r s : ℕ, r < T.beta_r → s < T.beta_c →
      T.B_exp.entry (T.beta_r * i + r) (T.beta_c * j + s) = B.entry i j) ∧
    T.Res_add.rows = T.lcm_row ∧ T.Res_add.cols = T.lcm_col ∧
    (∀ i j : ℕ, T.Res_add.entry i j = T.A_exp.entry i j + T.B_exp.entry i j) ∧
    (A.rows = B.rows → A.cols = B.cols →
      T.alpha_r = 1 ∧ T.alpha_c = 1 ∧ T.beta_r = 1 ∧ T.beta_c = 1 ∧
      T.Res_add = np_add A B) := by
  subst hT
  rw [stp_matrix_addition_eq]
  refine ⟨rfl, rfl, Nat.mul_div_cancel' (Nat.dvd_lcm_left _ _),
    Nat.mul_div_cancel' (Nat.dvd_lcm_left _ _),
    Nat.mul_div_cancel' (Nat.dvd_lcm_right _ _),
    Nat.mul_div_cancel' (Nat.dvd_lcm_right _ _),
    fun i j r s hr hs => np_kron_ones_entry A _ _ i j r s hr hs,
    fun i j r s hr hs => np_kron_ones_entry B _ _ i j r s hr hs,
    Nat.mul_div_cancel' (Nat.dvd_lcm_left _ _),
    Nat.mul_div_cancel' (Nat.dvd_lcm_left _ _),
    fun i j => rfl, ?_⟩
  intro hrow hcol
  have er : Nat.lcm A.rows B.rows = A.rows := by rw [← hrow, Nat.lcm_self]
  have ec : Nat.lcm A.cols B.cols = A.cols := by rw [← hcol, Nat.lcm_self]
  have f1 : Nat.lcm A.rows B.rows / A.rows = 1 := by rw [er, Nat.div_self h1]
  have f2 : Nat.lcm A.cols B.cols / A.cols = 1 := by rw [ec, Nat.div_self h2]
  have f3 : Nat.lcm A.rows B.rows / B.rows = 1 := by rw [er, ← hrow, Nat.div_self h1]
  have f4 : Nat.lcm A.cols B.cols / B.cols = 1 := by rw [ec, ← hcol, Nat.div_self h2]
  refine ⟨f1, f2, f3, f4, ?_⟩
  simp only [f1, f2, f3, f4, np_kron_ones_one]

/-- Claim C5 witness at the concrete matrices A = [[1,2],[3,4]] (2 x 2) and
B = [[1,0],[0,1],[1,1]] (3 x 2). -/
theorem stp_matrix_addition_correct_witness :
    0 < exA.rows ∧ 0 < exA.cols ∧ 0 < exB.rows ∧ 0 < exB.cols ∧
    (stp_matrix_addition exA exB).lcm_row = Nat.lcm exA.rows exB.rows ∧
    (stp_matrix_addition exA exB).Res_add.rows = (stp_matrix_addition exA exB).lcm_row :=
  ⟨by decide, by decide, by decide, by decide,
    (stp_matrix_addition_correct exA exB _ (by decide) (by decide) (by decide) (by decide)
      rfl).1,
    (stp_matrix_addition_correct exA exB _ (by decide) (by decide) (by decide) (by decide)
      rfl).2.2.2.2.2.2.2.2.1⟩

/-- Claim C8: generalized vector addition is commutative up to the swap of
the expansion factors: the two results are equal as matrices and the alpha
of one invocation is the beta of the swapped one. -/
theorem stp_addition_comm (V1 V2 : NPMat)
    (hm : 0 < V1.rows) (hp : 0 < V2.rows) (hc : V1.cols = V2.cols) :
    (stp_addition_stepwise V1 V2).Result = (stp_addition_stepwise V2 V1).Result ∧
    (stp_addition_stepwise V1 V2).alpha = (stp_addition_stepwise V2 V1).beta ∧
    (stp_addition_stepwise V1 V2).beta = (stp_addition_stepwise V2 V1).alpha := by
  rw [stp_addition_eq, stp_addition_eq]
  have hlcm : Nat.lcm V2.rows V1.rows = Nat.lcm V1.rows V2.rows := Nat.lcm_comm _ _
  refine ⟨?_, by rw [hlcm], by rw [hlcm]⟩
  refine NPMat.ext ?_ ?_ ?_
  · show V1.rows * (Nat.lcm V1.rows V2.rows / V1.rows) =
      V2.rows * (Nat.lcm V2.rows V1.rows / V2.rows)
    rw [hlcm, Nat.mul_div_cancel' (Nat.dvd_lcm_left V1.rows V2.rows),
      Nat.mul_div_cancel' (Nat.dvd_lcm_right V1.rows V2.rows)]
  · show V1.cols * 1 = V2.cols * 1
    rw [hc]
  · funext i j
    show (np_kron V1 _).entry i j + (np_kron V2 _).entry i j =
      (np_kron V2 _).entry i j + (np_kron V1 _).entry i j
    rw [hlcm, add_comm]

/-- Claim C8 witness at the concrete vectors [[10],[20]] and
[[1],[2],[3]]. -/
theorem stp_addition_comm_witness :
    0 < exV1.rows ∧ 0 < exV2.rows ∧ exV1.cols = exV2.cols ∧
    (stp_addition_stepwise exV1 exV2).Result = (stp_addition_stepwise exV2 exV1).Result ∧
    (stp_addition_stepwise exV1 exV2).alpha = (stp_addition_stepwise exV2 exV1).beta :=
  ⟨by decide, by decide, rfl,
    (stp_addition_comm exV1 exV2 (by decide) (by decide) rfl).1,
    (stp_addition_comm exV1 exV2 (by decide) (by decide) rfl).2.1⟩

/-- Claim C9: on V1 = [[10],[20]] and V2 = [[1],[2],[3]] the generalized
addition yields L = 6, alpha = 3, beta = 2, the expansions
[10,10,10,20,20,20] and [1,1,2,2,3,3], and the result
[11,11,12,22,23,23]. -/
theorem stp_addition_scenario_two :
    (stp_addition_stepwise exV1 exV2).LCM = 6 ∧
    (stp_addition_stepwise exV1 exV2).alpha = 3 ∧
    (stp_addition_stepwise exV1 exV2).beta = 2 ∧
    (stp_addition_stepwise exV1 exV2).V1_kron.rows = 6 ∧
    (stp_addition_stepwise exV1 exV2).V1_kron.cols = 1 ∧
    (stp_addition_stepwise exV1 exV2).V2_kron.rows = 6 ∧
    (stp_addition_stepwise exV1 exV2).V2_kron.cols = 1 ∧
    (stp_addition_stepwise exV1 exV2).Result.rows = 6 ∧
    (stp_addition_stepwise exV1 exV2).Result.cols = 1 ∧
    (∀ i, i < 6 →
      (stp_addition_stepwise exV1 exV2).V1_kron.entry i 0 =
        [(10 : ℤ), 10, 10, 20, 20, 20].getD i 0) ∧
    (∀ i, i < 6 →
      (stp_addition_stepwise exV1 exV2).V2_kron.entry i 0 =
        [(1 : ℤ), 1, 2, 2, 3, 3].getD i 0) ∧
    (∀ i, i < 6 →
      (stp_addition_stepwise exV1 exV2).Result.entry i 0 =
        [(11 : ℤ), 11, 12, 22, 23, 23].getD i 0) := by
  decide

/-! ### The zero and negative cases of `get_lcm` -/

/-- Claim C6 counterexample: a zero dimension does not fail fast; the LCM
routine silently returns the degenerate value 0, and a negative dimension
silently returns a positive lcm. -/
theorem get_lcm_no_failure_counterexample :
    get_lcm 0 5 = 0 ∧ get_lcm (-2) 3 = 6 := by decide

/-- Claim C6 (amended): reconciliation never signals an error; with a zero
argument the LCM routine returns the degenerate value 0, and with two
nonzero arguments (negative ones included) it returns the positive lcm of
the absolute values. -/
theorem get_lcm_total_behavior (a b : ℤ) :
    (a = 0 ∨ b = 0 → get_lcm a b = 0) ∧
    (a ≠ 0 → b ≠ 0 →
      get_lcm a b = (Nat.lcm a.natAbs b.natAbs : ℤ) ∧ 0 < get_lcm a b) := by
  constructor
  · intro h
    simp [get_lcm, h]
  · intro ha hb
    constructor
    · rw [get_lcm, if_neg (not_or.mpr ⟨ha, hb⟩)]
      congr 1
      rw [Int.natAbs_mul, Nat.lcm, Int.gcd]
    · rw [get_lcm, if_neg (not_or.mpr ⟨ha, hb⟩)]
      have h1 : 0 < (a * b).natAbs := Int.natAbs_pos.mpr (mul_ne_zero ha hb)
      have h2 : 0 < Int.gcd a b := Int.gcd_pos_of_ne_zero_left b ha
      have h3 : (Int.gcd a b : ℕ) ∣ (a * b).natAbs := by
        rw [Int.natAbs_mul]
        exact Dvd.dvd.mul_right (Nat.gcd_dvd_left _ _) _
      exact_mod_cast Nat.div_pos (Nat.le_of_dvd h1 h3) h2

/-- Claim C6 amended witness at the inputs (0, -7) and (-3, 4). -/
theorem get_lcm_total_behavior_witness :
    get_lcm 0 (-7) = 0 ∧
    get_lcm (-3) 4 = (Nat.lcm (Int.natAbs (-3)) (Int.natAbs 4) : ℤ) ∧
    0 < get_lcm (-3) 4 :=
  ⟨(get_lcm_total_behavior 0 (-7)).1 (Or.inl rfl),
    ((get_lcm_total_behavior (-3) 4).2 (by decide) (by decide)).1,
    ((get_lcm_total_behavior (-3) 4).2 (by decide) (by decide)).2⟩

/-- Claim C7: with a zero argument the LCM routine returns 0 and signals no
error. -/
theorem get_lcm_zero (a b : ℤ) (h : a = 0 ∨ b = 0) : get_lcm a b = 0 := by
  simp [get_lcm, h]

/-- Claim C7 witness at the input (0, 7). -/
theorem get_lcm_zero_witness : ((0 : ℤ) = 0 ∨ (7 : ℤ) = 0) ∧ get_lcm 0 7 = 0 :=
  ⟨Or.inl rfl, get_lcm_zero 0 7 (Or.inl rfl)⟩

/-- Claim C10: on nonzero integers, negative ones included, the LCM routine
returns the positive lcm of the absolute values, and it is symmetric on all
integer inputs. -/
theorem get_lcm_int_correct (a b : ℤ) :
    (a ≠ 0 → b ≠ 0 →
      get_lcm a b = (Nat.lcm a.natAbs b.natAbs : ℤ) ∧ 0 < get_lcm a b) ∧
    get_lcm a b = get_lcm b a := by
  constructor
  · intro ha hb
    constructor
    · rw [get_lcm, if_neg (not_or.mpr ⟨ha, hb⟩)]
      congr 1
      rw [Int.natAbs_mul, Nat.lcm, Int.gcd]
    · have h1 : 0 < (a * b).natAbs := Int.natAbs_pos.mpr (mul_ne_zero ha hb)
      have h2 : 0 < Int.gcd a b := Int.gcd_pos_of_ne_zero_left b ha
      have h3 : (Int.gcd a b : ℕ) ∣ (a * b).natAbs := by
        rw [Int.natAbs_mul]
        exact Dvd.dvd.mul_right (Nat.gcd_dvd_left _ _) _
      rw [get_lcm, if_neg (not_or.mpr ⟨ha, hb⟩)]
      exact_mod_cast Nat.div_pos (Nat.le_of_dvd h1 h3) h2
  · rcases eq_or_ne a 0 with ha | ha
    · simp [get_lcm, ha]
    rcases eq_or_ne b 0 with hb | hb
    · simp [get_lcm, hb]
    rw [get_lcm, get_lcm, if_neg (not_or.mpr ⟨ha, hb⟩),
      if_neg (not_or.mpr ⟨hb, ha⟩), Int.mul_comm, Int.gcd_comm]

/-- Claim C10 witness at the inputs (-4, 6). -/
theorem get_lcm_int_correct_witness :
    (get_lcm (-4) 6 = (Nat.lcm (Int.natAbs (-4)) (Int.natAbs 6) : ℤ) ∧
      0 < get_lcm (-4) 6) ∧
    get_lcm (-4) 6 = get_lcm 6 (-4) :=
  ⟨(get_lcm_int_correct (-4) 6).1 (by decide) (by decide),
    (get_lcm_int_correct (-4) 6).2⟩
